import Mathlib

/-!
Verification development for the seep package: the SecureChannel handshake
orchestration (`Connection.Handshake` in the unnamed source file), the
encrypted stream (`Reader.Read`, `Writer.Write`), and the RPC codec bridge
(`rpcClientCodec` / `rpcServerCodec` in rpc.go).

Shallow-embedding conventions:

* Byte strings are `List Nat`.  One XDR opaque frame (as carried by
  `EncodeOpaque` / `DecodeOpaque`) is one `List Nat`; a frame stream is a
  `List (List Nat)`.  Decoding from an exhausted stream models the decoder
  error `DecodeOpaque` returns at end of input.  Encoding into the
  in-memory outbound stream cannot fail.
* The external noise cipher state is modelled as a key plus a nonce
  counter.  `CipherState.Encrypt` tags the plaintext with both and bumps
  the nonce; `CipherState.Decrypt` succeeds exactly on a ciphertext that
  was produced by the matching key at the matching nonce, which captures
  the authenticated-encryption contract of spec section 6 (nonce-stateful,
  single-direction, failure on any mismatch).
* The external handshake engine (flynn/noise `HandshakeState`) is modelled
  as a transparent message pattern: `HSEngine.WriteMessage` emits its
  payload as the round's message and the peer's `HSEngine.ReadMessage`
  recovers exactly that payload.  On the pattern's final message both
  calls return the session's two cipher states in the library's fixed
  order: the first result keyed `k1` (the initiator-to-responder traffic
  direction), the second keyed `k2` (responder-to-initiator), the order
  the noise Split operation produces for both roles and both calls.
* The external XDR and gob value serializers are modelled as two distinct
  injective sequential encodings of a header followed by a
  length-prefixed body, matching the contract of spec section 6
  (encode header then body into one buffer; decode the header first and
  the body later from the captured remainder).
-/

namespace Seep

/-- Errors surfaced by the embedded operations: a frame-transport decode
failure, an authenticated-decryption failure, the end-of-file result of a
read from an empty in-memory buffer, and a serializer decode failure. -/
inductive Err where
  | transport
  | decrypt
  | eof
  | decode
deriving DecidableEq

/-- Model of the external noise cipher state: a key and a nonce counter. -/
structure CipherState where
  key : Nat
  nonce : Nat
deriving DecidableEq

/-- Model of cipher-state encryption: tag the plaintext with the key and
the current nonce, then advance the nonce. -/
def CipherState.Encrypt (cs : CipherState) (p : List Nat) :
    List Nat × CipherState :=
  (cs.key :: cs.nonce :: p, { cs with nonce := cs.nonce + 1 })

/-- Model of cipher-state decryption: succeeds exactly on a ciphertext
produced by the matching key at the matching nonce, advancing the nonce;
any other input fails to authenticate. -/
def CipherState.Decrypt (cs : CipherState) (c : List Nat) :
    Option (List Nat × CipherState) :=
  match c with
  | k :: n :: p =>
    if k = cs.key ∧ n = cs.nonce then
      some (p, { cs with nonce := cs.nonce + 1 })
    else none
  | _ => none

/-- A send cipher state and a receive cipher state are correctly paired
when they agree on key and nonce position. -/
def Paired (s r : CipherState) : Prop := s.key = r.key ∧ s.nonce = r.nonce

/-- Embedding of the `Reader` struct (unnamed source file, lines 39-44):
the inbound frame stream `src`, the decrypt cipher state `dec`, and the
carry-over plaintext buffer `buf`. -/
structure Reader where
  src : List (List Nat)
  dec : CipherState
  buf : List Nat
deriving DecidableEq

/-- Model of Go `bytes.Buffer.Read`: serve up to `cap` bytes from the
front of the buffer; an empty buffer yields end-of-file unless the
destination has length zero. -/
def bufRead (b : List Nat) (cap : Nat) : (List Nat × Option Err) × List Nat :=
  if b.isEmpty then
    (([], if cap = 0 then none else some Err.eof), b)
  else
    ((b.take cap, none), b.drop cap)

/-- Embedding of `Reader.Read` (unnamed source file, lines 45-55): if the
carry-over buffer is empty, receive one frame (error verbatim if the
stream is exhausted), decrypt it (error verbatim on authentication
failure, with the buffer left unchanged), deposit the plaintext; then
serve from the buffer with `bytes.Buffer.Read` semantics. -/
def Reader.Read (r : Reader) (cap : Nat) : (List Nat × Option Err) × Reader :=
  if r.buf.isEmpty then
    match r.src with
    | [] => (([], some Err.transport), r)
    | f :: fs =>
      match r.dec.Decrypt f with
      | none => (([], some Err.decrypt), { r with src := fs })
      | some (p, d2) =>
        let s := bufRead p cap
        (s.1, { src := fs, dec := d2, buf := s.2 })
  else
    let s := bufRead r.buf cap
    (s.1, { r with buf := s.2 })

/-- Embedding of the `Writer` struct (unnamed source file, lines 60-64):
the outbound frame stream `dst` and the encrypt cipher state `enc`. -/
structure Writer where
  dst : List (List Nat)
  enc : CipherState
deriving DecidableEq

/-- Embedding of `Writer.Write` (unnamed source file, lines 65-72):
encrypt the full input, append it as one frame, and report the full
input length accepted.  The in-memory frame sink cannot fail. -/
def Writer.Write (w : Writer) (p : List Nat) : (Nat × Option Err) × Writer :=
  let e := w.enc.Encrypt p
  ((p.length, none), { dst := w.dst ++ [e.1], enc := e.2 })

/-- Perform the given sequence of writes, collecting the returned byte
counts and the final writer. -/
def writeMany : Writer → List (List Nat) → List Nat × Writer
  | w, [] => ([], w)
  | w, p :: ps =>
    let s := w.Write p
    let rest := writeMany s.2 ps
    (s.1.1 :: rest.1, rest.2)

/-- The ciphertext frames produced by encrypting the given plaintexts in
sequence under key `k` starting from nonce `n`. -/
def encFrames (k : Nat) : Nat → List (List Nat) → List (List Nat)
  | _, [] => []
  | n, p :: ps => (k :: n :: p) :: encFrames k (n + 1) ps

/-- Repeatedly call `Reader.Read` with capacity `cap`, concatenating all
bytes served over `fuel` calls (reads that fail serve no bytes and are
simply passed over, like a caller that keeps polling). -/
def drain : Reader → Nat → Nat → List Nat
  | _, _, 0 => []
  | r, cap, fuel + 1 =>
    let s := r.Read cap
    s.1.1 ++ drain s.2 cap fuel

/-- Fold a sequence of `Reader.Read` calls (one capacity per call) and
return the final reader state. -/
def readTrace (r : Reader) (caps : List Nat) : Reader :=
  caps.foldl (fun s c => (s.Read c).2) r

/-- The carry-over buffer content `b` is covered by one refill unit of
the initial reader `r0`: it is a suffix of the initial (seeded) buffer,
or a suffix of the plaintext of a single frame of the inbound stream
(in the cipher model the plaintext of a frame is the frame minus its
two-element key/nonce tag). -/
def OneUnit (r0 : Reader) (b : List Nat) : Prop :=
  b <:+ r0.buf ∨ ∃ f, f ∈ r0.src ∧ b <:+ f.drop 2

/-- Embedding of the message count `nm` computed in `Connection.Handshake`
(unnamed source file, lines 109-111): the number of pattern messages,
incremented for the initiator, halved by integer division — the number of
messages this side will send. -/
def nmOf (initiator : Bool) (msgs : Nat) : Nat :=
  (if initiator then msgs + 1 else msgs) / 2

/-- Embedding of the per-round chunk-size computation in
`Connection.Handshake` (unnamed source file, lines 107-114).  When the
staged length exceeds the 4096-byte threshold and also exceeds
`nm * 4096`, the code computes `l / nm + 1`; when `nm = 0` the Go
expression `l / nm` is an integer division by zero, a runtime panic,
modelled here as `none`. -/
def chunkLen (l : Nat) (initiator : Bool) (msgs : Nat) : Option Nat :=
  if 0x1000 < l then
    let nm := nmOf initiator msgs
    if nm * 0x1000 < l then
      if nm = 0 then none else some (l / nm + 1)
    else some 0x1000
  else some l

/-- The chunk size the spec's words describe for the oversized case: the
staged length split evenly across the rounds, rounded up. -/
def specCeilDiv (a b : Nat) : Nat := (a + b - 1) / b

/-- Model of the external handshake engine: total message count of the
pattern, count of messages already processed, and the two session keys it
will derive (`k1` for the initiator-to-responder direction, `k2` for the
other, in the fixed order the noise Split operation returns them). -/
structure HSEngine where
  msgs : Nat
  idx : Nat
  k1 : Nat
  k2 : Nat
deriving DecidableEq

/-- Model of the engine's write call: emit the payload as this round's
message; on the pattern's final message also return the two cipher
states, first the `k1` state then the `k2` state. -/
def HSEngine.WriteMessage (e : HSEngine) (payload : List Nat) :
    (List Nat × Option CipherState × Option CipherState) × HSEngine :=
  let e2 := { e with idx := e.idx + 1 }
  if e.msgs ≤ e.idx + 1 then
    ((payload, some ⟨e.k1, 0⟩, some ⟨e.k2, 0⟩), e2)
  else
    ((payload, none, none), e2)

/-- Model of the engine's read call: recover the peer's payload from the
message; on the pattern's final message also return the two cipher
states in the same fixed order as the write call. -/
def HSEngine.ReadMessage (e : HSEngine) (msg : List Nat) :
    (List Nat × Option CipherState × Option CipherState) × HSEngine :=
  let e2 := { e with idx := e.idx + 1 }
  if e.msgs ≤ e.idx + 1 then
    ((msg, some ⟨e.k1, 0⟩, some ⟨e.k2, 0⟩), e2)
  else
    ((msg, none, none), e2)

/-- Result of the `Connection.Handshake` loop: the cipher state `o` bound
to the outbound (encrypt) direction, the cipher state `i` bound to the
inbound (decrypt) direction, the remaining staged outbound bytes, the
accumulated inbound staging bytes, the unconsumed inbound frames, the
frames transmitted, and whether the loop completed on its write branch. -/
structure HSRes where
  o : CipherState
  i : CipherState
  outbuf : List Nat
  inbuf : List Nat
  rxRest : List (List Nat)
  tx : List (List Nat)
  byWrite : Bool
deriving DecidableEq

/-- Embedding of the handshake loop of `Connection.Handshake` (unnamed
source file, lines 116-132).  On this side's turn, slice the next chunk
of length `l` off the staged outbound buffer, hand it to the engine's
write call, transmit the message, and stop if the first cipher result is
non-nil (binding it to the encrypt direction and the second to decrypt);
otherwise receive one frame, hand it to the engine's read call, append
the recovered payload to the inbound staging buffer, and stop if the
second cipher result is non-nil (binding the first to decrypt and the
second to encrypt).  Receiving from an exhausted stream is the verbatim
transport error; a completing call yielding only one cipher state would
leave the Go code with a nil cipher and is modelled as failure.  The fuel
argument bounds the iteration count; one unit per loop iteration
suffices since every iteration processes at least one message. -/
def hsLoop : Nat → HSEngine → Bool → Nat → List Nat → List Nat →
    List (List Nat) → List (List Nat) → Option HSRes
  | 0, _, _, _, _, _, _, _ => none
  | fuel + 1, eng, state, l, ob, ib, rx, tx =>
    if state then
      let chunk := ob.take l
      let ob2 := ob.drop l
      let w := eng.WriteMessage chunk
      let tx2 := tx ++ [w.1.1]
      match w.1.2.1, w.1.2.2 with
      | some o, some i => some ⟨o, i, ob2, ib, rx, tx2, true⟩
      | some _, none => none
      | none, _ =>
        match rx with
        | [] => none
        | f :: rx2 =>
          let rd := (w.2).ReadMessage f
          let ib2 := ib ++ rd.1.1
          match rd.1.2.1, rd.1.2.2 with
          | some i, some o => some ⟨o, i, ob2, ib2, rx2, tx2, false⟩
          | none, some _ => none
          | _, none => hsLoop fuel rd.2 true l ob2 ib2 rx2 tx2
    else
      match rx with
      | [] => none
      | f :: rx2 =>
        let rd := eng.ReadMessage f
        let ib2 := ib ++ rd.1.1
        match rd.1.2.1, rd.1.2.2 with
        | some i, some o => some ⟨o, i, ob, ib2, rx2, tx, false⟩
        | none, some _ => none
        | _, none => hsLoop fuel rd.2 true l ob ib2 rx2 tx

/-- The noise configuration data `Connection.Handshake` consumes: the
role flag, the length of the pattern's message list, and the two session
keys its engine will derive. -/
structure NoiseConfig where
  Initiator : Bool
  msgs : Nat
  k1 : Nat
  k2 : Nat
deriving DecidableEq

/-- Result of `Connection.Handshake`: the Writer's encrypt cipher, the
Reader's decrypt cipher, the Reader's carry-over buffer seeded with the
entire inbound staging buffer, the unconsumed inbound frames handed to
the Reader, the transmitted frames, the staged outbound bytes left
undelivered (the Go code discards them), and the completion branch. -/
structure ConnRes where
  wEnc : CipherState
  rDec : CipherState
  seed : List Nat
  rxRest : List (List Nat)
  tx : List (List Nat)
  outbufLeft : List Nat
  byWrite : Bool
deriving DecidableEq

/-- Embedding of `Connection.Handshake` (unnamed source file, lines
104-141): compute the per-round chunk size from the staged outbound
length (propagating the division-by-zero panic as `none`), run the
handshake loop from the configured role, and on completion build the
Writer from the cipher bound to the encrypt direction and the Reader
from the cipher bound to the decrypt direction, seeding the Reader's
buffer with the entire inbound staging buffer. -/
def Handshake (cfg : NoiseConfig) (outbuf inbuf : List Nat)
    (rx : List (List Nat)) : Option ConnRes :=
  match chunkLen outbuf.length cfg.Initiator cfg.msgs with
  | none => none
  | some l =>
    match hsLoop (cfg.msgs + 1) ⟨cfg.msgs, 0, cfg.k1, cfg.k2⟩
        cfg.Initiator l outbuf inbuf rx [] with
    | none => none
    | some res =>
      some ⟨res.o, res.i, res.inbuf, res.rxRest, res.tx, res.outbuf,
        res.byWrite⟩

/-- Cut a buffer into `w` successive chunks of length `l` (the last ones
possibly short or empty), as successive `bytes.Buffer.Next` calls do. -/
def chunksOf (l : Nat) : Nat → List Nat → List (List Nat)
  | 0, _ => []
  | w + 1, buf => buf.take l :: chunksOf l w (buf.drop l)

/-- Number of messages a side writes in a handshake of `rem` remaining
messages when it is this side's turn exactly when the flag is true. -/
def wTurns : Bool → Nat → Nat
  | _, 0 => 0
  | s, rem + 1 => (if s then 1 else 0) + wTurns (!s) rem

/-- Number of messages a side reads in a handshake of `rem` remaining
messages. -/
def rTurns (s : Bool) (rem : Nat) : Nat := rem - wTurns s rem

/-- Whether the final message of `rem` remaining messages is written by
this side (true) or read by it (false). -/
def lastW : Bool → Nat → Bool
  | _, 0 => false
  | s, 1 => s
  | s, rem + 2 => lastW (!s) (rem + 1)

/-- The cipher pair `(o, i)` the `Connection.Handshake` loop installs,
as a function of whether the loop completed on its write branch: the
write branch binds the first engine result (`k1`) to encrypt, the read
branch binds it to decrypt. -/
def hsCiphers (k1 k2 : Nat) (w : Bool) : CipherState × CipherState :=
  if w then (⟨k1, 0⟩, ⟨k2, 0⟩) else (⟨k2, 0⟩, ⟨k1, 0⟩)

/-- Model of the `net/rpc` request header: service method (modelled as an
atom) and sequence number. -/
structure Request where
  ServiceMethod : Nat
  Seq : Nat
deriving DecidableEq

/-- Model of the `net/rpc` response header: service method, sequence
number, and error indicator. -/
structure Response where
  ServiceMethod : Nat
  Seq : Nat
  Error : Nat
deriving DecidableEq

/-- The two payload-serializer bindings of the codec bridge. -/
inductive Binding where
  | xdrB
  | gobB
deriving DecidableEq

/-- Model of a serialized body value: length prefix followed by the
value's bytes. -/
def encBody (b : List Nat) : List Nat := b.length :: b

/-- Model of the deferred body decode: read the length prefix and take
that many bytes from the captured remainder. -/
def decBody : List Nat → Option (List Nat)
  | n :: rest => if n ≤ rest.length then some (rest.take n) else none
  | [] => none

/-- Embedding of `xdrEncReq` (rpc.go, lines 151-159): serialize the
request header and then the body sequentially into one buffer, via the
model of the external XDR encoder. -/
def xdrEncReq (h : Request) (b : List Nat) : List Nat :=
  h.ServiceMethod :: h.Seq :: encBody b

/-- Embedding of `xdrDecReq` (rpc.go, lines 160-167): decode the request
header from the buffer and capture the remainder for the deferred body
decode. -/
def xdrDecReq : List Nat → Option (Request × List Nat)
  | sm :: sq :: rest => some (⟨sm, sq⟩, rest)
  | _ => none

/-- Embedding of `xdrEncResp` (rpc.go, lines 169-177). -/
def xdrEncResp (h : Response) (b : List Nat) : List Nat :=
  h.ServiceMethod :: h.Seq :: h.Error :: encBody b

/-- Embedding of `xdrDecResp` (rpc.go, lines 178-185). -/
def xdrDecResp : List Nat → Option (Response × List Nat)
  | sm :: sq :: er :: rest => some (⟨sm, sq, er⟩, rest)
  | _ => none

/-- Embedding of `gobEncReq` (rpc.go, lines 209-217): the gob binding is
modelled as a distinct sequential format with a stream tag and swapped
header field order. -/
def gobEncReq (h : Request) (b : List Nat) : List Nat :=
  1 :: h.Seq :: h.ServiceMethod :: encBody b

/-- Embedding of `gobDecReq` (rpc.go, lines 218-224). -/
def gobDecReq : List Nat → Option (Request × List Nat)
  | 1 :: sq :: sm :: rest => some (⟨sm, sq⟩, rest)
  | _ => none

/-- Embedding of `gobEncResp` (rpc.go, lines 226-234). -/
def gobEncResp (h : Response) (b : List Nat) : List Nat :=
  1 :: h.Seq :: h.ServiceMethod :: h.Error :: encBody b

/-- Embedding of `gobDecResp` (rpc.go, lines 235-241). -/
def gobDecResp : List Nat → Option (Response × List Nat)
  | 1 :: sq :: sm :: er :: rest => some (⟨sm, sq, er⟩, rest)
  | _ => none

/-- Request encode function selected by the codec's binding, modelling
the `encode` function field of `rpcClientCodec`. -/
def encReq : Binding → Request → List Nat → List Nat
  | Binding.xdrB, h, b => xdrEncReq h b
  | Binding.gobB, h, b => gobEncReq h b

/-- Request header decode selected by the binding. -/
def decReq : Binding → List Nat → Option (Request × List Nat)
  | Binding.xdrB, l => xdrDecReq l
  | Binding.gobB, l => gobDecReq l

/-- Response encode function selected by the binding. -/
def encResp : Binding → Response → List Nat → List Nat
  | Binding.xdrB, h, b => xdrEncResp h b
  | Binding.gobB, h, b => gobEncResp h b

/-- Response header decode selected by the binding. -/
def decResp : Binding → List Nat → Option (Response × List Nat)
  | Binding.xdrB, l => xdrDecResp l
  | Binding.gobB, l => gobDecResp l

/-- Embedding of the `rpcClientCodec` struct (rpc.go, lines 40-49): the
inbound and outbound frame streams, the encrypt and decrypt cipher
states, the serializer binding standing for the `encode`/`decode`
function fields, and the captured remainder standing for the `decode2`
continuation. -/
structure rpcClientCodec where
  src : List (List Nat)
  dst : List (List Nat)
  enc : CipherState
  dec : CipherState
  binding : Binding
  decode2 : Option (List Nat)
deriving DecidableEq

/-- Embedding of `rpcClientCodec.WriteRequest` (rpc.go, lines 50-57):
serialize the envelope, encrypt it as a single unit, and transmit it as
one frame. -/
def rpcClientCodec.WriteRequest (c : rpcClientCodec) (req : Request)
    (body : List Nat) : Option Err × rpcClientCodec :=
  let buf := encReq c.binding req body
  let e := c.enc.Encrypt buf
  (none, { c with dst := c.dst ++ [e.1], enc := e.2 })

/-- Embedding of `rpcClientCodec.ReadResponseHeader` (rpc.go, lines
58-68): receive one frame, decrypt it, decode the response header, and
store the captured remainder for the deferred body decode.  Each failure
is surfaced verbatim and leaves the later steps untouched. -/
def rpcClientCodec.ReadResponseHeader (c : rpcClientCodec) :
    Except Err Response × rpcClientCodec :=
  match c.src with
  | [] => (Except.error Err.transport, c)
  | f :: fs =>
    match c.dec.Decrypt f with
    | none => (Except.error Err.decrypt, { c with src := fs })
    | some (pt, d2) =>
      match decResp c.binding pt with
      | none => (Except.error Err.decode, { c with src := fs, dec := d2 })
      | some (resp, rest) =>
        (Except.ok resp,
          { c with src := fs, dec := d2, decode2 := some rest })

/-- Embedding of `rpcClientCodec.ReadResponseBody` (rpc.go, lines
69-71): run the stored continuation on the captured remainder. -/
def rpcClientCodec.ReadResponseBody (c : rpcClientCodec) :
    Option (List Nat) :=
  match c.decode2 with
  | none => none
  | some rest => decBody rest

/-- Embedding of the `rpcServerCodec` struct (rpc.go, lines 95-104). -/
structure rpcServerCodec where
  src : List (List Nat)
  dst : List (List Nat)
  enc : CipherState
  dec : CipherState
  binding : Binding
  decode2 : Option (List Nat)
deriving DecidableEq

/-- Embedding of `rpcServerCodec.WriteResponse` (rpc.go, lines 105-112). -/
def rpcServerCodec.WriteResponse (c : rpcServerCodec) (resp : Response)
    (body : List Nat) : Option Err × rpcServerCodec :=
  let buf := encResp c.binding resp body
  let e := c.enc.Encrypt buf
  (none, { c with dst := c.dst ++ [e.1], enc := e.2 })

/-- Embedding of `rpcServerCodec.ReadRequestHeader` (rpc.go, lines
113-123). -/
def rpcServerCodec.ReadRequestHeader (c : rpcServerCodec) :
    Except Err Request × rpcServerCodec :=
  match c.src with
  | [] => (Except.error Err.transport, c)
  | f :: fs =>
    match c.dec.Decrypt f with
    | none => (Except.error Err.decrypt, { c with src := fs })
    | some (pt, d2) =>
      match decReq c.binding pt with
      | none => (Except.error Err.decode, { c with src := fs, dec := d2 })
      | some (req, rest) =>
        (Except.ok req,
          { c with src := fs, dec := d2, decode2 := some rest })

/-- Embedding of `rpcServerCodec.ReadRequestBody` (rpc.go, lines
124-126). -/
def rpcServerCodec.ReadRequestBody (c : rpcServerCodec) :
    Option (List Nat) :=
  match c.decode2 with
  | none => none
  | some rest => decBody rest

/-- Result of a codec handshake loop: the cipher states installed in the
codec's `enc` and `dec` fields, the unconsumed inbound frames, and the
frames transmitted. -/
structure RpcHsRes where
  enc : CipherState
  dec : CipherState
  rxRest : List (List Nat)
  tx : List (List Nat)
deriving DecidableEq

/-- Embedding of `rpcClientCodec.handshake` (rpc.go, lines 72-92): the
same alternating loop as `Connection.Handshake` but with empty payloads;
in both the write and the read branch the first cipher result is
assigned to `r.enc` and the second to `r.dec`, and the loop stops when
`r.enc` (the first result) is non-nil.  A completing call yielding only
the first cipher state would leave a nil `r.dec` and is modelled as
failure. -/
def clientHandshake : Nat → HSEngine → Bool → List (List Nat) →
    List (List Nat) → Option RpcHsRes
  | 0, _, _, _, _ => none
  | fuel + 1, eng, state, rx, tx =>
    if state then
      let w := eng.WriteMessage []
      let tx2 := tx ++ [w.1.1]
      match w.1.2.1, w.1.2.2 with
      | some e, some d => some ⟨e, d, rx, tx2⟩
      | some _, none => none
      | none, _ =>
        match rx with
        | [] => none
        | f :: rx2 =>
          let rd := (w.2).ReadMessage f
          match rd.1.2.1, rd.1.2.2 with
          | some e, some d => some ⟨e, d, rx2, tx2⟩
          | some _, none => none
          | none, _ => clientHandshake fuel rd.2 true rx2 tx2
    else
      match rx with
      | [] => none
      | f :: rx2 =>
        let rd := eng.ReadMessage f
        match rd.1.2.1, rd.1.2.2 with
        | some e, some d => some ⟨e, d, rx2, tx⟩
        | some _, none => none
        | none, _ => clientHandshake fuel rd.2 true rx2 tx

/-- Embedding of `rpcServerCodec.handshake` (rpc.go, lines 127-147): the
same loop, but in both branches the first cipher result is assigned to
`r.dec` and the second to `r.enc`, and the loop stops when `r.enc` (the
second result) is non-nil.  A completing call yielding only the second
cipher state would leave a nil `r.dec` and is modelled as failure. -/
def serverHandshake : Nat → HSEngine → Bool → List (List Nat) →
    List (List Nat) → Option RpcHsRes
  | 0, _, _, _, _ => none
  | fuel + 1, eng, state, rx, tx =>
    if state then
      let w := eng.WriteMessage []
      let tx2 := tx ++ [w.1.1]
      match w.1.2.1, w.1.2.2 with
      | some d, some e => some ⟨e, d, rx, tx2⟩
      | none, some _ => none
      | _, none =>
        match rx with
        | [] => none
        | f :: rx2 =>
          let rd := (w.2).ReadMessage f
          match rd.1.2.1, rd.1.2.2 with
          | some d, some e => some ⟨e, d, rx2, tx2⟩
          | none, some _ => none
          | _, none => serverHandshake fuel rd.2 true rx2 tx2
    else
      match rx with
      | [] => none
      | f :: rx2 =>
        let rd := eng.ReadMessage f
        match rd.1.2.1, rd.1.2.2 with
        | some d, some e => some ⟨e, d, rx2, tx⟩
        | none, some _ => none
        | _, none => serverHandshake fuel rd.2 true rx2 tx

/-!
Theorems.  Each claim's theorem carries the claim id in its doc comment;
the lemmas around them are shared supporting material.
-/

/-- Inversion for the cipher model: a successful decryption pins down the
ciphertext's shape, the plaintext, and the advanced cipher state. -/
theorem Decrypt_some {cs : CipherState} {f p : List Nat} {d2 : CipherState}
    (h : cs.Decrypt f = some (p, d2)) :
    f = cs.key :: cs.nonce :: p ∧ p = f.drop 2 ∧
      d2 = ⟨cs.key, cs.nonce + 1⟩ := by
  match f with
  | [] => simp [CipherState.Decrypt] at h
  | [k] => simp [CipherState.Decrypt] at h
  | k :: n :: rest =>
    simp only [CipherState.Decrypt] at h
    by_cases hk : k = cs.key ∧ n = cs.nonce
    · rw [if_pos hk] at h
      obtain ⟨h1, h2⟩ := Prod.mk.injEq .. ▸ Option.some.injEq .. ▸ h
      refine ⟨?_, ?_, ?_⟩
      · simp [hk.1, hk.2, ← h1]
      · simp [← h1]
      · cases d2; simpa using h2.symm
    · rw [if_neg hk] at h; exact absurd h (by simp)

/-- The byte view of the `bytes.Buffer.Read` model: the served bytes are
always the capacity-bounded prefix and the kept remainder the matching
drop, whether or not the buffer is empty. -/
theorem bufRead_eq (b : List Nat) (cap : Nat) :
    (bufRead b cap).1.1 = b.take cap ∧ (bufRead b cap).2 = b.drop cap := by
  by_cases h : b.isEmpty
  · have : b = [] := by simpa [List.isEmpty_iff] using h
    subst this; simp [bufRead]
  · simp [bufRead, h]

/-- C9.  The chunk-size computation at the start of `Connection.Handshake`
is not total: for a Responder running a one-message pattern with a staged
outbound buffer of 4097 bytes, the computed count of messages this side
will send is zero and the Go code divides by zero (a runtime panic,
modelled as `none`).  The claim's safety property is the evident intent;
the code is a slip. -/
theorem chunkLenDivByZero :
    chunkLen 4097 false 1 = none ∧ nmOf false 1 = 0 := by decide

/-- C3 counterexample.  For the Initiator on a one-message pattern with
8192 staged bytes (so one send round and 8192 exceeding one round times
the threshold), the code computes a per-round chunk of 8193, while the
staged length split evenly across the one round and rounded up is 8192:
the claim's third case is false when the round count divides the staged
length exactly. -/
theorem chunkSizeNotCeilOnExactDivision :
    chunkLen 8192 true 1 = some 8193 ∧ nmOf true 1 = 1 ∧
      specCeilDiv 8192 (nmOf true 1) = 8192 ∧ (8193 : Nat) ≠ 8192 := by
  decide

/-- C3 as amended.  With `n = nmOf init msgs` the count of messages this
side sends (ceiling of half the pattern messages for the Initiator,
floor for the Responder): a staged length of at most 4096 is used as the
chunk size itself (hence at most one threshold's worth); a staged length
above 4096 but at most `n * 4096` yields exactly 4096; a staged length
above `n * 4096` (with `n` nonzero) yields `L / n + 1` — the even split
rounded down plus one, which coincides with the even split rounded up
except when `n` divides `L` exactly, and which always fits the staged
length within the `n` rounds. -/
theorem chunkSizeCases (L msgs : Nat) (init : Bool) :
    (L ≤ 0x1000 → chunkLen L init msgs = some L) ∧
    (0x1000 < L → L ≤ nmOf init msgs * 0x1000 →
      chunkLen L init msgs = some 0x1000) ∧
    (0x1000 < L → nmOf init msgs * 0x1000 < L → 0 < nmOf init msgs →
      chunkLen L init msgs = some (L / nmOf init msgs + 1) ∧
      L ≤ nmOf init msgs * (L / nmOf init msgs + 1) ∧
      (¬ nmOf init msgs ∣ L →
        L / nmOf init msgs + 1 = specCeilDiv L (nmOf init msgs))) ∧
    nmOf true msgs = (msgs + 1) / 2 ∧ nmOf false msgs = msgs / 2 := by
  refine ⟨?_, ?_, ?_, rfl, rfl⟩
  · intro h1
    simp [chunkLen, Nat.not_lt.mpr h1]
  · intro h1 h2
    simp [chunkLen, h1, Nat.not_lt.mpr h2]
  · intro h1 h2 h3
    set n := nmOf init msgs with hn
    have hne : n ≠ 0 := by omega
    have hdm := Nat.div_add_mod L n
    have hlt : L % n < n := Nat.mod_lt _ h3
    have hms : n * (L / n + 1) = n * (L / n) + n := Nat.mul_succ n (L / n)
    refine ⟨?_, ?_, ?_⟩
    · simp [chunkLen, h1, h2, hne, ← hn]
    · omega
    · intro hnd
      have hr : L % n ≠ 0 := fun hc => hnd (Nat.dvd_of_mod_eq_zero hc)
      have hshape : L + n - 1 = n * (L / n + 1) + (L % n - 1) := by omega
      have h0 : (L % n - 1) / n = 0 := Nat.div_eq_of_lt (by omega)
      rw [specCeilDiv, hshape, Nat.mul_add_div h3, h0, Nat.add_zero]

/-- C3 witness: the three amended cases at concrete staged lengths 10,
5000, and 9001 for the Initiator on a three-message pattern (two send
rounds). -/
theorem chunkSizeCases_witness :
    chunkLen 10 true 3 = some 10 ∧ chunkLen 5000 true 3 = some 0x1000 ∧
      chunkLen 9001 true 3 = some 4501 ∧
      9001 ≤ nmOf true 3 * 4501 ∧ 4501 = specCeilDiv 9001 (nmOf true 3) := by
  refine ⟨(chunkSizeCases 10 3 true).1 (by decide), ?_, ?_, ?_, ?_⟩
  · exact (chunkSizeCases 5000 3 true).2.1 (by decide) (by decide)
  · exact ((chunkSizeCases 9001 3 true).2.2.1 (by decide) (by decide)
      (by decide)).1
  · exact ((chunkSizeCases 9001 3 true).2.2.1 (by decide) (by decide)
      (by decide)).2.1
  · exact (((chunkSizeCases 9001 3 true).2.2.1 (by decide) (by decide)
      (by decide)).2.2 (by decide)).symm

/-- C7.  When a received frame fails to decrypt, `Reader.Read`,
`rpcClientCodec.ReadResponseHeader`, and `rpcServerCodec.ReadRequestHeader`
each return the decryption error verbatim and deliver no plaintext: the
reader serves zero bytes and its carry-over buffer, cipher state, and the
codecs' header result and deferred-body state are all left unchanged
(only the offending frame has been consumed from the transport). -/
theorem decryptFailureNoPlaintext :
    (∀ (r : Reader) (cap : Nat) (f : List Nat) (fs : List (List Nat)),
      r.buf = [] → r.src = f :: fs → r.dec.Decrypt f = none →
      r.Read cap = (([], some Err.decrypt), { r with src := fs })) ∧
    (∀ (c : rpcClientCodec) (f : List Nat) (fs : List (List Nat)),
      c.src = f :: fs → c.dec.Decrypt f = none →
      c.ReadResponseHeader = (Except.error Err.decrypt, { c with src := fs })) ∧
    (∀ (c : rpcServerCodec) (f : List Nat) (fs : List (List Nat)),
      c.src = f :: fs → c.dec.Decrypt f = none →
      c.ReadRequestHeader = (Except.error Err.decrypt, { c with src := fs })) := by
  refine ⟨?_, ?_, ?_⟩
  · intro r cap f fs hb hs hd
    simp [Reader.Read, hb, hs, hd]
  · intro c f fs hs hd
    simp [rpcClientCodec.ReadResponseHeader, hs, hd]
  · intro c f fs hs hd
    simp [rpcServerCodec.ReadRequestHeader, hs, hd]

/-- C7 witness: a frame that cannot authenticate (too short to carry the
key/nonce tag) makes each of the three reads fail with the decryption
error and leave their state otherwise unchanged. -/
theorem decryptFailureNoPlaintext_witness :
    Reader.Read ⟨[[9]], ⟨0, 0⟩, []⟩ 4 =
      (([], some Err.decrypt), ⟨[], ⟨0, 0⟩, []⟩) ∧
    rpcClientCodec.ReadResponseHeader
        ⟨[[9]], [], ⟨1, 0⟩, ⟨0, 0⟩, Binding.xdrB, none⟩ =
      (Except.error Err.decrypt, ⟨[], [], ⟨1, 0⟩, ⟨0, 0⟩, Binding.xdrB, none⟩) ∧
    rpcServerCodec.ReadRequestHeader
        ⟨[[9]], [], ⟨1, 0⟩, ⟨0, 0⟩, Binding.gobB, none⟩ =
      (Except.error Err.decrypt, ⟨[], [], ⟨1, 0⟩, ⟨0, 0⟩, Binding.gobB, none⟩) :=
  ⟨decryptFailureNoPlaintext.1 ⟨[[9]], ⟨0, 0⟩, []⟩ 4 [9] [] rfl rfl rfl,
   decryptFailureNoPlaintext.2.1 ⟨[[9]], [], ⟨1, 0⟩, ⟨0, 0⟩, Binding.xdrB, none⟩
     [9] [] rfl rfl,
   decryptFailureNoPlaintext.2.2 ⟨[[9]], [], ⟨1, 0⟩, ⟨0, 0⟩, Binding.gobB, none⟩
     [9] [] rfl rfl⟩

/-- C10.  A `Writer.Write` of zero bytes encrypts the empty plaintext
into a well-formed frame and reports zero bytes accepted; when the
peer's carry-over buffer is empty and that frame is the next one
received, the decrypted plaintext is empty, so the `bytes.Buffer.Read`
at the end of `Reader.Read` finds the buffer still empty and returns
zero bytes with the end-of-file error instead of waiting for a further
frame: an empty write makes the reader observe end-of-file on a live
stream. -/
theorem emptyWriteReadsAsEOF (k n : Nat) (dst0 fs : List (List Nat))
    (cap : Nat) (hcap : 0 < cap) :
    Writer.Write ⟨dst0, ⟨k, n⟩⟩ [] = ((0, none), ⟨dst0 ++ [[k, n]], ⟨k, n + 1⟩⟩) ∧
    Reader.Read ⟨[k, n] :: fs, ⟨k, n⟩, []⟩ cap =
      (([], some Err.eof), ⟨fs, ⟨k, n + 1⟩, []⟩) := by
  constructor
  · simp [Writer.Write, CipherState.Encrypt]
  · have hc : cap ≠ 0 := by omega
    simp [Reader.Read, CipherState.Decrypt, bufRead, hc]

/-- C10 witness at key 3, nonce 0, capacity 1. -/
theorem emptyWriteReadsAsEOF_witness :
    Writer.Write ⟨[], ⟨3, 0⟩⟩ [] = ((0, none), ⟨[[3, 0]], ⟨3, 1⟩⟩) ∧
    Reader.Read ⟨[[3, 0]], ⟨3, 0⟩, []⟩ 1 =
      (([], some Err.eof), ⟨[], ⟨3, 1⟩, []⟩) := by
  have h := emptyWriteReadsAsEOF 3 0 [] [] 1 (by decide)
  simpa using h

/-- C5.  For both serializer bindings and both directions: a client
request written with `WriteRequest` crosses the frame transport and is
recovered by the server adapter with the identical header (from
`ReadRequestHeader`) and identical body (from the deferred
`ReadRequestBody`); the server's response written with `WriteResponse`
is likewise recovered by the client adapter with identical header and
body.  The cipher states are the correctly paired session states (`k1`
for the client-to-server direction, `k2` for the reverse). -/
theorem codecBridgeRoundTrip (bnd : Binding) (req : Request)
    (body : List Nat) (resp : Response) (rbody : List Nat) (k1 k2 : Nat) :
    let c0 : rpcClientCodec := ⟨[], [], ⟨k1, 0⟩, ⟨k2, 0⟩, bnd, none⟩
    let s0 : rpcServerCodec := ⟨[], [], ⟨k2, 0⟩, ⟨k1, 0⟩, bnd, none⟩
    let c1 := (c0.WriteRequest req body).2
    let s1 : rpcServerCodec := { s0 with src := c1.dst }
    s1.ReadRequestHeader.1 = Except.ok req ∧
    s1.ReadRequestHeader.2.ReadRequestBody = some body ∧
    (let s2 := (s1.ReadRequestHeader.2.WriteResponse resp rbody).2
     let c2 : rpcClientCodec := { c1 with src := s2.dst }
     c2.ReadResponseHeader.1 = Except.ok resp ∧
     c2.ReadResponseHeader.2.ReadResponseBody = some rbody) := by
  cases bnd <;>
    simp [rpcClientCodec.WriteRequest, rpcClientCodec.ReadResponseHeader,
      rpcClientCodec.ReadResponseBody, rpcServerCodec.WriteResponse,
      rpcServerCodec.ReadRequestHeader, rpcServerCodec.ReadRequestBody,
      CipherState.Encrypt, CipherState.Decrypt, encReq, decReq, encResp,
      decResp, xdrEncReq, xdrDecReq, xdrEncResp, xdrDecResp, gobEncReq,
      gobDecReq, gobEncResp, gobDecResp, encBody, decBody]

/-- Coverage by one refill unit is preserved when the buffer shrinks to a
suffix of itself. -/
theorem OneUnit_of_suffix {r0 : Reader} {b b2 : List Nat}
    (hs : b2 <:+ b) (h : OneUnit r0 b) : OneUnit r0 b2 := by
  cases h with
  | inl h => exact Or.inl (hs.trans h)
  | inr h =>
    obtain ⟨f, hf, hsf⟩ := h
    exact Or.inr ⟨f, hf, hs.trans hsf⟩

/-- One `Reader.Read` step preserves the frame stream being a suffix of
the initial stream and the buffer being covered by one refill unit. -/
theorem readStep_inv (r0 r : Reader) (cap : Nat)
    (hs : r.src <:+ r0.src) (hb : OneUnit r0 r.buf) :
    (r.Read cap).2.src <:+ r0.src ∧ OneUnit r0 (r.Read cap).2.buf := by
  by_cases he : r.buf.isEmpty
  · match hsrc : r.src with
    | [] =>
      have heq : r.Read cap = (([], some Err.transport), r) := by
        simp [Reader.Read, he, hsrc]
      rw [heq]
      exact ⟨hs, hb⟩
    | f :: fs =>
      have hcons : f :: fs <:+ r0.src := hsrc ▸ hs
      have hfs : fs <:+ r0.src := (List.suffix_cons f fs).trans hcons
      have hfmem : f ∈ r0.src := hcons.subset (by simp)
      cases hd : r.dec.Decrypt f with
      | none =>
        have heq : (r.Read cap).2 = { r with src := fs } := by
          simp [Reader.Read, he, hsrc, hd]
        rw [heq]
        exact ⟨hfs, hb⟩
      | some pd =>
        obtain ⟨p, d2⟩ := pd
        obtain ⟨hf, hp, hd2⟩ := Decrypt_some hd
        have heq : (r.Read cap).2 = ⟨fs, d2, p.drop cap⟩ := by
          simp [Reader.Read, he, hsrc, hd, (bufRead_eq p cap).2]
        rw [heq]
        refine ⟨hfs, Or.inr ⟨f, hfmem, ?_⟩⟩
        rw [← hp]
        exact List.drop_suffix cap p
  · have heq : (r.Read cap).2 = { r with buf := r.buf.drop cap } := by
      simp [Reader.Read, he, (bufRead_eq r.buf cap).2]
    rw [heq]
    exact ⟨hs, OneUnit_of_suffix (List.drop_suffix cap r.buf) hb⟩

/-- Any sequence of reads leaves the frame stream a suffix of the
initial one and the buffer covered by one refill unit. -/
theorem readTrace_inv (r0 : Reader) (caps : List Nat) :
    (readTrace r0 caps).src <:+ r0.src ∧ OneUnit r0 (readTrace r0 caps).buf := by
  suffices h : ∀ r, r.src <:+ r0.src → OneUnit r0 r.buf →
      (readTrace r caps).src <:+ r0.src ∧
        OneUnit r0 (readTrace r caps).buf by
    exact h r0 (List.suffix_refl _) (Or.inl (List.suffix_refl _))
  induction caps with
  | nil => intro r h1 h2; exact ⟨h1, h2⟩
  | cons c cs ih =>
    intro r h1 h2
    have hstep := readStep_inv r0 r c h1 h2
    simpa [readTrace] using ih (r.Read c).2 hstep.1 hstep.2

/-- C6.  At every point of a Reader's lifetime — in particular right
after `Connection.Handshake` seeds its carry-over buffer — the buffer
holds at most one refill unit of unread bytes: it is a suffix of the
seeded buffer or of the plaintext of a single decrypted frame
(`OneUnit`, first conjunct, for an arbitrary sequence of reads).
Moreover a read that finds the buffer nonempty performs no transport
receive and no decrypt (second conjunct); a read that finds it empty
performs exactly one frame receive plus one decrypt before serving
bytes (third conjunct); and a read that finds both buffer and stream
empty serves nothing and changes nothing (fourth conjunct). -/
theorem readerBufferInvariant (r0 : Reader) (caps : List Nat) (cap : Nat) :
    OneUnit r0 (readTrace r0 caps).buf ∧
    (r0.buf ≠ [] →
      (r0.Read cap).2.src = r0.src ∧ (r0.Read cap).2.dec = r0.dec ∧
      (r0.Read cap).1.1 = r0.buf.take cap ∧
      (r0.Read cap).2.buf = r0.buf.drop cap) ∧
    (r0.buf = [] → ∀ f fs p d2, r0.src = f :: fs →
      r0.dec.Decrypt f = some (p, d2) →
      (r0.Read cap).1.1 = p.take cap ∧
      (r0.Read cap).2 = ⟨fs, d2, p.drop cap⟩) ∧
    (r0.buf = [] → r0.src = [] →
      (r0.Read cap).1.1 = [] ∧ (r0.Read cap).2 = r0) := by
  refine ⟨(readTrace_inv r0 caps).2, ?_, ?_, ?_⟩
  · intro hne
    have he : ¬ r0.buf.isEmpty := by simpa [List.isEmpty_iff] using hne
    have hbr := bufRead_eq r0.buf cap
    simp [Reader.Read, he]
    exact ⟨hbr.1, hbr.2⟩
  · intro hbe f fs p d2 hsrc hd
    have he : r0.buf.isEmpty := by simp [hbe]
    have hbr := bufRead_eq p cap
    simp [Reader.Read, he, hsrc, hd]
    exact ⟨hbr.1, hbr.2⟩
  · intro hbe hsrc
    have he : r0.buf.isEmpty := by simp [hbe]
    simp [Reader.Read, he, hsrc]

/-- C6 witness: a reader seeded with one byte over one inbound frame,
after two unit-capacity reads, still holds at most one refill unit; the
step characterizations at the same concrete reader. -/
theorem readerBufferInvariant_witness :
    OneUnit ⟨[[5, 0, 1, 2]], ⟨5, 0⟩, [9]⟩
      (readTrace ⟨[[5, 0, 1, 2]], ⟨5, 0⟩, [9]⟩ [1, 1]).buf ∧
    (([9] : List Nat) ≠ [] →
      ((Reader.Read ⟨[[5, 0, 1, 2]], ⟨5, 0⟩, [9]⟩ 1).2.src = [[5, 0, 1, 2]] ∧
       (Reader.Read ⟨[[5, 0, 1, 2]], ⟨5, 0⟩, [9]⟩ 1).2.dec = ⟨5, 0⟩ ∧
       (Reader.Read ⟨[[5, 0, 1, 2]], ⟨5, 0⟩, [9]⟩ 1).1.1 = [9].take 1 ∧
       (Reader.Read ⟨[[5, 0, 1, 2]], ⟨5, 0⟩, [9]⟩ 1).2.buf = [9].drop 1)) ∧
    (([9] : List Nat) = [] → ∀ f fs p d2, [[5, 0, 1, 2]] = f :: fs →
      CipherState.Decrypt ⟨5, 0⟩ f = some (p, d2) →
      (Reader.Read ⟨[[5, 0, 1, 2]], ⟨5, 0⟩, [9]⟩ 1).1.1 = p.take 1 ∧
      (Reader.Read ⟨[[5, 0, 1, 2]], ⟨5, 0⟩, [9]⟩ 1).2 = ⟨fs, d2, p.drop 1⟩) ∧
    (([9] : List Nat) = [] → ([[5, 0, 1, 2]] : List (List Nat)) = [] →
      (Reader.Read ⟨[[5, 0, 1, 2]], ⟨5, 0⟩, [9]⟩ 1).1.1 = [] ∧
      (Reader.Read ⟨[[5, 0, 1, 2]], ⟨5, 0⟩, [9]⟩ 1).2 = ⟨[[5, 0, 1, 2]], ⟨5, 0⟩, [9]⟩) :=
  readerBufferInvariant ⟨[[5, 0, 1, 2]], ⟨5, 0⟩, [9]⟩ [1, 1] 1

/-- Draining a reader whose stream holds the frames of plaintexts `ps`
encrypted in sequence under the paired cipher state, starting from
carry-over `b`, yields `b` followed by the concatenated plaintexts, for
any positive capacity and enough fuel (one unit per buffered byte and
one per frame suffice; surplus fuel only adds empty error reads). -/
theorem drain_encFrames (k cap : Nat) (hcap : 0 < cap) :
    ∀ fuel n (b : List Nat) (ps : List (List Nat)),
      b.length + (ps.map (fun p => p.length + 1)).sum ≤ fuel →
      drain ⟨encFrames k n ps, ⟨k, n⟩, b⟩ cap fuel = b ++ ps.flatten := by
  intro fuel
  induction fuel with
  | zero =>
    intro n b ps h
    have hb : b = [] := by
      cases b with
      | nil => rfl
      | cons x xs => simp at h
    have hp : ps = [] := by
      cases ps with
      | nil => rfl
      | cons p ps2 => simp at h
    subst hb; subst hp
    simp [drain]
  | succ fu ih =>
    intro n b ps h
    match b with
    | bh :: bt =>
      have hne : ¬ (bh :: bt).isEmpty := by simp
      have h1 : (Reader.Read ⟨encFrames k n ps, ⟨k, n⟩, bh :: bt⟩ cap).1.1 =
          (bh :: bt).take cap := by
        simp [Reader.Read, hne, (bufRead_eq (bh :: bt) cap).1]
      have h2 : (Reader.Read ⟨encFrames k n ps, ⟨k, n⟩, bh :: bt⟩ cap).2 =
          ⟨encFrames k n ps, ⟨k, n⟩, (bh :: bt).drop cap⟩ := by
        simp [Reader.Read, hne, (bufRead_eq (bh :: bt) cap).2]
      rw [drain, h1, h2, ih n ((bh :: bt).drop cap) ps
        (by simp only [List.length_drop, List.length_cons] at h ⊢; omega)]
      rw [← List.append_assoc, List.take_append_drop]
    | [] =>
      match ps with
      | [] =>
        have heq : Reader.Read ⟨encFrames k n [], ⟨k, n⟩, []⟩ cap =
            (([], some Err.transport), ⟨encFrames k n [], ⟨k, n⟩, []⟩) := by
          simp [Reader.Read, encFrames]
        rw [drain, heq]
        simpa using ih n [] [] (by simp)
      | p :: ps2 =>
        have hd : CipherState.Decrypt ⟨k, n⟩ (k :: n :: p) =
            some (p, ⟨k, n + 1⟩) := by
          simp [CipherState.Decrypt]
        have h1 : (Reader.Read ⟨encFrames k n (p :: ps2), ⟨k, n⟩, []⟩ cap).1.1 =
            p.take cap := by
          simp [Reader.Read, encFrames, hd, (bufRead_eq p cap).1]
        have h2 : (Reader.Read ⟨encFrames k n (p :: ps2), ⟨k, n⟩, []⟩ cap).2 =
            ⟨encFrames k (n + 1) ps2, ⟨k, n + 1⟩, p.drop cap⟩ := by
          simp [Reader.Read, encFrames, hd, (bufRead_eq p cap).2]
        rw [drain, h1, h2, ih (n + 1) (p.drop cap) ps2
          (by simp only [List.length_drop]
              simp only [List.map_cons, List.sum_cons, List.length_nil] at h
              omega)]
        simp only [List.nil_append, List.flatten_cons]
        rw [← List.append_assoc, List.take_append_drop]

/-- A sequence of `Writer.Write` calls from cipher state `(k, n)` returns
the full length of every input and appends exactly the frames of the
inputs encrypted in sequence, leaving the nonce advanced once per
write. -/
theorem writeMany_spec :
    ∀ (ps : List (List Nat)) (fs : List (List Nat)) (k n : Nat),
      writeMany ⟨fs, ⟨k, n⟩⟩ ps =
        (ps.map List.length,
          ⟨fs ++ encFrames k n ps, ⟨k, n + ps.length⟩⟩) := by
  intro ps
  induction ps with
  | nil => intro fs k n; simp [writeMany, encFrames]
  | cons p ps2 ih =>
    intro fs k n
    simp [writeMany, Writer.Write, CipherState.Encrypt, ih, encFrames,
      List.append_assoc]
    try omega

/-- C4.  For every list of byte sequences and correctly paired
send/receive cipher states: writing them in order on one endpoint
returns the full input length for every write, and enough reads on the
peer (any positive per-read capacity, each read served from the
carry-over buffer or exactly one received-and-decrypted frame) yield
exactly their concatenation, with no byte lost or duplicated. -/
theorem writeReadRoundTrip (ps : List (List Nat)) (s r : CipherState)
    (cap fuel : Nat) (hp : Paired s r) (hcap : 0 < cap)
    (hfuel : (ps.map (fun p => p.length + 1)).sum ≤ fuel) :
    (writeMany ⟨[], s⟩ ps).1 = ps.map List.length ∧
    drain ⟨(writeMany ⟨[], s⟩ ps).2.dst, r, []⟩ cap fuel = ps.flatten := by
  obtain ⟨k, n⟩ := s
  obtain ⟨k2, n2⟩ := r
  obtain ⟨hk, hn⟩ := hp
  simp only at hk hn
  subst hk; subst hn
  rw [writeMany_spec]
  refine ⟨rfl, ?_⟩
  simpa using drain_encFrames k cap hcap fuel n [] ps (by simpa using hfuel)

/-- C4 witness: three writes (two bytes, zero bytes, one byte) under key
5 drain back to the concatenation under capacity-2 reads. -/
theorem writeReadRoundTrip_witness :
    (writeMany ⟨[], ⟨5, 0⟩⟩ [[1, 2], [], [3]]).1 =
      ([[1, 2], [], [3]] : List (List Nat)).map List.length ∧
    drain ⟨(writeMany ⟨[], ⟨5, 0⟩⟩ [[1, 2], [], [3]]).2.dst, ⟨5, 0⟩, []⟩ 2 9 =
      ([[1, 2], [], [3]] : List (List Nat)).flatten :=
  writeReadRoundTrip [[1, 2], [], [3]] ⟨5, 0⟩ ⟨5, 0⟩ 2 9 ⟨rfl, rfl⟩
    (by decide) (by decide)

/-- Whenever `rpcClientCodec.handshake` completes, the first cipher
result of the completing engine call (the `k1` state) is installed as
`r.enc` and the second (the `k2` state) as `r.dec`, in both the write
and the read branch. -/
theorem clientHandshake_ciphers :
    ∀ fuel eng s rx tx res, clientHandshake fuel eng s rx tx = some res →
      res.enc = ⟨eng.k1, 0⟩ ∧ res.dec = ⟨eng.k2, 0⟩ := by
  intro fuel
  induction fuel with
  | zero => intro eng s rx tx res h; simp [clientHandshake] at h
  | succ fu ih =>
    intro eng s rx tx res h
    simp only [clientHandshake] at h
    cases s with
    | true =>
      rw [if_pos rfl] at h
      simp only [HSEngine.WriteMessage] at h
      by_cases hc : eng.msgs ≤ eng.idx + 1
      · simp only [if_pos hc] at h
        injection h with h2
        subst h2
        exact ⟨rfl, rfl⟩
      · simp only [if_neg hc] at h
        match rx with
        | [] => exact absurd h (by simp)
        | f :: rx2 =>
          simp only [HSEngine.ReadMessage] at h
          by_cases hc2 : eng.msgs ≤ eng.idx + 1 + 1
          · simp only [if_pos hc2] at h
            injection h with h2
            subst h2
            exact ⟨rfl, rfl⟩
          · simp only [if_neg hc2] at h
            have hr := ih _ _ _ _ _ h
            simpa using hr
    | false =>
      rw [if_neg (by simp)] at h
      match rx with
      | [] => exact absurd h (by simp)
      | f :: rx2 =>
        simp only [HSEngine.ReadMessage] at h
        by_cases hc : eng.msgs ≤ eng.idx + 1
        · simp only [if_pos hc] at h
          injection h with h2
          subst h2
          exact ⟨rfl, rfl⟩
        · simp only [if_neg hc] at h
          have hr := ih _ _ _ _ _ h
          simpa using hr

/-- Whenever `rpcServerCodec.handshake` completes, the first cipher
result of the completing engine call (the `k1` state) is installed as
`r.dec` and the second (the `k2` state) as `r.enc`, in both the write
and the read branch. -/
theorem serverHandshake_ciphers :
    ∀ fuel eng s rx tx res, serverHandshake fuel eng s rx tx = some res →
      res.enc = ⟨eng.k2, 0⟩ ∧ res.dec = ⟨eng.k1, 0⟩ := by
  intro fuel
  induction fuel with
  | zero => intro eng s rx tx res h; simp [serverHandshake] at h
  | succ fu ih =>
    intro eng s rx tx res h
    simp only [serverHandshake] at h
    cases s with
    | true =>
      rw [if_pos rfl] at h
      simp only [HSEngine.WriteMessage] at h
      by_cases hc : eng.msgs ≤ eng.idx + 1
      · simp only [if_pos hc] at h
        injection h with h2
        subst h2
        exact ⟨rfl, rfl⟩
      · simp only [if_neg hc] at h
        match rx with
        | [] => exact absurd h (by simp)
        | f :: rx2 =>
          simp only [HSEngine.ReadMessage] at h
          by_cases hc2 : eng.msgs ≤ eng.idx + 1 + 1
          · simp only [if_pos hc2] at h
            injection h with h2
            subst h2
            exact ⟨rfl, rfl⟩
          · simp only [if_neg hc2] at h
            have hr := ih _ _ _ _ _ h
            simpa using hr
    | false =>
      rw [if_neg (by simp)] at h
      match rx with
      | [] => exact absurd h (by simp)
      | f :: rx2 =>
        simp only [HSEngine.ReadMessage] at h
        by_cases hc : eng.msgs ≤ eng.idx + 1
        · simp only [if_pos hc] at h
          injection h with h2
          subst h2
          exact ⟨rfl, rfl⟩
        · simp only [if_neg hc] at h
          have hr := ih _ _ _ _ _ h
          simpa using hr

/-- Whenever the `Connection.Handshake` loop completes, the installed
cipher pair is determined by the completing branch: the write branch
binds the first engine result (`k1`) to the encrypt side `o`, the read
branch binds it to the decrypt side `i`. -/
theorem hsLoop_ciphers :
    ∀ fuel eng s l ob ib rx tx res,
      hsLoop fuel eng s l ob ib rx tx = some res →
      (res.byWrite = true → res.o = ⟨eng.k1, 0⟩ ∧ res.i = ⟨eng.k2, 0⟩) ∧
      (res.byWrite = false → res.o = ⟨eng.k2, 0⟩ ∧ res.i = ⟨eng.k1, 0⟩) := by
  intro fuel
  induction fuel with
  | zero => intro eng s l ob ib rx tx res h; simp [hsLoop] at h
  | succ fu ih =>
    intro eng s l ob ib rx tx res h
    simp only [hsLoop] at h
    cases s with
    | true =>
      rw [if_pos rfl] at h
      simp only [HSEngine.WriteMessage] at h
      by_cases hc : eng.msgs ≤ eng.idx + 1
      · simp only [if_pos hc] at h
        injection h with h2
        subst h2
        exact ⟨fun _ => ⟨rfl, rfl⟩, fun hb => by simp at hb⟩
      · simp only [if_neg hc] at h
        match rx with
        | [] => exact absurd h (by simp)
        | f :: rx2 =>
          simp only [HSEngine.ReadMessage] at h
          by_cases hc2 : eng.msgs ≤ eng.idx + 1 + 1
          · simp only [if_pos hc2] at h
            injection h with h2
            subst h2
            exact ⟨fun hb => by simp at hb, fun _ => ⟨rfl, rfl⟩⟩
          · simp only [if_neg hc2] at h
            have hr := ih _ _ _ _ _ _ _ _ h
            simpa using hr
    | false =>
      rw [if_neg (by simp)] at h
      match rx with
      | [] => exact absurd h (by simp)
      | f :: rx2 =>
        simp only [HSEngine.ReadMessage] at h
        by_cases hc : eng.msgs ≤ eng.idx + 1
        · simp only [if_pos hc] at h
          injection h with h2
          subst h2
          exact ⟨fun hb => by simp at hb, fun _ => ⟨rfl, rfl⟩⟩
        · simp only [if_neg hc] at h
          have hr := ih _ _ _ _ _ _ _ _ h
          simpa using hr

/-- C2 counterexample.  The server codec's handshake with the engine in
the initiator role on a one-message pattern completes on its write
branch; the completing call returns the cipher pair
(first `⟨10, 0⟩`, second `⟨20, 0⟩`), first the send-position state per
the engine interface of spec section 6 — yet the code installs the
second state `⟨20, 0⟩` as `r.enc` and the first (send-position) state
`⟨10, 0⟩` as `r.dec`: the first cipher result is bound to the decrypt
direction, refuting the claim that every loop installs the send-position
result as its encrypt cipher. -/
theorem serverCodecBindsFirstCipherToDecrypt :
    (serverHandshake 2 ⟨1, 0, 10, 20⟩ true [] []).map
        (fun r => (r.enc, r.dec)) = some (⟨20, 0⟩, ⟨10, 0⟩) ∧
    (⟨20, 0⟩ : CipherState) ≠ ⟨10, 0⟩ := by decide

/-- C2 as amended.  The installation is positional per loop, not
send-position-uniform: the client codec binds the first cipher result of
the completing call to encrypt and the second to decrypt in both
branches; the server codec binds the first to decrypt and the second to
encrypt in both branches; `Connection.Handshake` binds the first to
encrypt when it completes by a write and to decrypt when it completes by
a read.  Consequently a client/server codec pair over the same session
keys installs correctly crossed directions (the client's encrypt state
is paired with the server's decrypt state and vice versa), matching an
engine that returns the initiator-to-responder state first for both
calls, with the client as initiator. -/
theorem handshakeCipherInstallation :
    (∀ fuel eng s rx tx res, clientHandshake fuel eng s rx tx = some res →
      res.enc = ⟨eng.k1, 0⟩ ∧ res.dec = ⟨eng.k2, 0⟩) ∧
    (∀ fuel eng s rx tx res, serverHandshake fuel eng s rx tx = some res →
      res.enc = ⟨eng.k2, 0⟩ ∧ res.dec = ⟨eng.k1, 0⟩) ∧
    (∀ cfg ob ib rx res, Handshake cfg ob ib rx = some res →
      (res.byWrite = true → res.wEnc = ⟨cfg.k1, 0⟩ ∧ res.rDec = ⟨cfg.k2, 0⟩) ∧
      (res.byWrite = false → res.wEnc = ⟨cfg.k2, 0⟩ ∧ res.rDec = ⟨cfg.k1, 0⟩)) ∧
    (∀ fuelC fuelS engC engS sC sS rxC rxS txC txS resC resS,
      clientHandshake fuelC engC sC rxC txC = some resC →
      serverHandshake fuelS engS sS rxS txS = some resS →
      engC.k1 = engS.k1 → engC.k2 = engS.k2 →
      Paired resC.enc resS.dec ∧ Paired resS.enc resC.dec) := by
  refine ⟨clientHandshake_ciphers, serverHandshake_ciphers, ?_, ?_⟩
  · intro cfg ob ib rx res h
    simp only [Handshake] at h
    rcases hcl : chunkLen ob.length cfg.Initiator cfg.msgs with _ | l
    · rw [hcl] at h; simp at h
    · rw [hcl] at h
      dsimp only at h
      rcases hlp : hsLoop (cfg.msgs + 1) ⟨cfg.msgs, 0, cfg.k1, cfg.k2⟩
          cfg.Initiator l ob ib rx [] with _ | res0
      · rw [hlp] at h; simp at h
      · rw [hlp] at h
        dsimp only at h
        injection h with h2
        subst h2
        have hr := hsLoop_ciphers (cfg.msgs + 1) _ _ _ _ _ _ _ _ hlp
        simpa using hr
  · intro fC fS eC eS sC sS rC rS tC tS resC resS hC hS hk1 hk2
    obtain ⟨he1, hd1⟩ := clientHandshake_ciphers fC eC sC rC tC resC hC
    obtain ⟨he2, hd2⟩ := serverHandshake_ciphers fS eS sS rS tS resS hS
    constructor
    · rw [he1, hd2, hk1]; exact ⟨rfl, rfl⟩
    · rw [he2, hd1, hk2]; exact ⟨rfl, rfl⟩

/-- C2 witness: a two-message pattern; the client completes by its read
with `enc = ⟨10, 0⟩` (the first result), the server by its write with
`enc = ⟨20, 0⟩` (the second result), and the pair is correctly
crossed. -/
theorem handshakeCipherInstallation_witness :
    ((⟨⟨10, 0⟩, ⟨20, 0⟩, [], [[]]⟩ : RpcHsRes).enc = ⟨10, 0⟩ ∧
      (⟨⟨10, 0⟩, ⟨20, 0⟩, [], [[]]⟩ : RpcHsRes).dec = ⟨20, 0⟩) ∧
    ((⟨⟨20, 0⟩, ⟨10, 0⟩, [], [[]]⟩ : RpcHsRes).enc = ⟨20, 0⟩ ∧
      (⟨⟨20, 0⟩, ⟨10, 0⟩, [], [[]]⟩ : RpcHsRes).dec = ⟨10, 0⟩) ∧
    (Paired (⟨⟨10, 0⟩, ⟨20, 0⟩, [], [[]]⟩ : RpcHsRes).enc
        (⟨⟨20, 0⟩, ⟨10, 0⟩, [], [[]]⟩ : RpcHsRes).dec ∧
      Paired (⟨⟨20, 0⟩, ⟨10, 0⟩, [], [[]]⟩ : RpcHsRes).enc
        (⟨⟨10, 0⟩, ⟨20, 0⟩, [], [[]]⟩ : RpcHsRes).dec) :=
  ⟨handshakeCipherInstallation.1 3 ⟨2, 0, 10, 20⟩ true [[]] []
      ⟨⟨10, 0⟩, ⟨20, 0⟩, [], [[]]⟩ (by decide),
   handshakeCipherInstallation.2.1 3 ⟨2, 0, 10, 20⟩ false [[]] []
      ⟨⟨20, 0⟩, ⟨10, 0⟩, [], [[]]⟩ (by decide),
   handshakeCipherInstallation.2.2.2 3 3 ⟨2, 0, 10, 20⟩ ⟨2, 0, 10, 20⟩
      true false [[]] [[]] [] [] ⟨⟨10, 0⟩, ⟨20, 0⟩, [], [[]]⟩
      ⟨⟨20, 0⟩, ⟨10, 0⟩, [], [[]]⟩ (by decide) (by decide) rfl rfl⟩

/-- A side writes at most as many messages as remain. -/
theorem wTurns_le : ∀ (n : Nat) (s : Bool), wTurns s n ≤ n := by
  intro n
  induction n with
  | zero => intro s; simp [wTurns]
  | succ m ih =>
    intro s
    have h1 := ih true
    have h2 := ih false
    cases s <;> simp [wTurns] <;> omega

/-- The loop's write-turn count agrees with the `nm` computed by
`Connection.Handshake`: the ceiling of half the messages for the side
that starts (the Initiator), the floor for the other side. -/
theorem wTurns_nmOf :
    ∀ n, wTurns true n = nmOf true n ∧ wTurns false n = nmOf false n := by
  intro n
  induction n with
  | zero => simp [wTurns, nmOf]
  | succ m ih =>
    obtain ⟨h1, h2⟩ := ih
    have e1 : wTurns true (m + 1) = 1 + wTurns false m := by simp [wTurns]
    have e2 : wTurns false (m + 1) = wTurns true m := by simp [wTurns]
    simp only [nmOf] at *
    simp at *
    omega

/-- Write-turn step for the starting side over two messages. -/
theorem wTurns_true_step (n : Nat) :
    wTurns true (n + 2) = wTurns true n + 1 := by
  simp [wTurns]; omega

/-- Write-turn step entering from the non-starting side. -/
theorem wTurns_false_step (n : Nat) :
    wTurns false (n + 1) = wTurns true n := by
  simp [wTurns]

/-- Read-turn step for the starting side over two messages. -/
theorem rTurns_true_step (n : Nat) :
    rTurns true (n + 2) = rTurns true n + 1 := by
  have h := wTurns_le n true
  simp only [rTurns, wTurns_true_step]
  omega

/-- Read-turn step entering from the non-starting side. -/
theorem rTurns_false_step (n : Nat) :
    rTurns false (n + 1) = rTurns true n + 1 := by
  have h := wTurns_le n true
  simp only [rTurns, wTurns_false_step]
  omega

/-- The starting side reads at least once when two or more messages
remain. -/
theorem rTurns_true_pos (n : Nat) : 1 ≤ rTurns true (n + 2) := by
  have h := wTurns_le n true
  simp only [rTurns, wTurns_true_step]
  omega

/-- The non-starting side always reads at least once. -/
theorem rTurns_false_pos (n : Nat) : 1 ≤ rTurns false (n + 1) := by
  have h := wTurns_le n true
  simp only [rTurns, wTurns_false_step]
  omega

/-- Final-turn parity step for the starting side. -/
theorem lastW_true_step (n : Nat) :
    lastW true (n + 3) = lastW true (n + 1) := by
  have e1 : lastW true (n + 3) = lastW false (n + 2) := rfl
  have e2 : lastW false (n + 2) = lastW true (n + 1) := rfl
  rw [e1, e2]

/-- Final-turn parity entering from the non-starting side. -/
theorem lastW_false_step (n : Nat) :
    lastW false (n + 1) = lastW true n := by
  cases n with
  | zero => rfl
  | succ m => rfl

/-- The two sides disagree on who acts last. -/
theorem lastW_opp : ∀ n, 1 ≤ n → lastW true n = !(lastW false n) := by
  intro n
  induction n with
  | zero => intro h; omega
  | succ m ih =>
    intro _
    cases m with
    | zero => rfl
    | succ p =>
      have e1 : lastW true (p + 2) = lastW false (p + 1) := rfl
      have e2 : lastW false (p + 2) = lastW true (p + 1) := rfl
      rw [e1, e2, ih (by omega)]
      cases lastW false (p + 1) <;> rfl

/-- `chunksOf` produces exactly the requested number of chunks. -/
theorem chunksOf_length (l : Nat) :
    ∀ w buf, (chunksOf l w buf).length = w := by
  intro w
  induction w with
  | zero => intro buf; simp [chunksOf]
  | succ v ih => intro buf; simp [chunksOf, ih]

/-- Concatenating the chunks recovers the prefix the rounds can carry. -/
theorem chunksOf_flatten (l : Nat) :
    ∀ w buf, (chunksOf l w buf).flatten = buf.take (w * l) := by
  intro w
  induction w with
  | zero => intro buf; simp [chunksOf]
  | succ v ih =>
    intro buf
    simp only [chunksOf, List.flatten_cons, ih]
    rw [show (v + 1) * l = l + v * l by ring, List.take_add]

/-- Whenever the chunk-size computation succeeds and the side sends at
least one message, the whole staged buffer fits in its send rounds. -/
theorem chunkLen_covers (L : Nat) (init : Bool) (M l : Nat)
    (h : chunkLen L init M = some l) (hn : 0 < nmOf init M) :
    L ≤ nmOf init M * l := by
  set n := nmOf init M with hdef
  rw [chunkLen] at h
  by_cases h1 : 0x1000 < L
  · rw [if_pos h1] at h
    simp only [← hdef] at h
    by_cases h2 : n * 0x1000 < L
    · rw [if_pos h2, if_neg (by omega)] at h
      injection h with h3
      subst h3
      have hdm := Nat.div_add_mod L n
      have hlt : L % n < n := Nat.mod_lt _ hn
      have hms : n * (L / n + 1) = n * (L / n) + n := Nat.mul_succ n (L / n)
      omega
    · rw [if_neg h2] at h
      injection h with h3
      subst h3
      omega
  · rw [if_neg h1] at h
    injection h with h3
    subst h3
    calc L = 1 * L := (Nat.one_mul L).symm
    _ ≤ n * L := Nat.mul_le_mul_right L hn

/-- Closed form of the `Connection.Handshake` loop: starting with `rem`
messages left (of which this side writes `wTurns s rem` and reads
`rTurns s rem`), the loop transmits the successive chunks of the staged
outbound buffer, appends the payload of every received frame to the
inbound staging buffer, consumes exactly its read turns from the inbound
stream, and installs the cipher pair determined by who acts last. -/
theorem hsLoop_spec (k1 k2 : Nat) :
    ∀ fuel rem d s l ob ib rx tx, 1 ≤ rem → rem ≤ fuel →
      rTurns s rem ≤ rx.length →
      hsLoop fuel ⟨d + rem, d, k1, k2⟩ s l ob ib rx tx =
        some ⟨(hsCiphers k1 k2 (lastW s rem)).1,
              (hsCiphers k1 k2 (lastW s rem)).2,
              ob.drop (wTurns s rem * l),
              ib ++ (rx.take (rTurns s rem)).flatten,
              rx.drop (rTurns s rem),
              tx ++ chunksOf l (wTurns s rem) ob,
              lastW s rem⟩ := by
  intro fuel
  induction fuel with
  | zero => intro rem d s l ob ib rx tx h1 h2 h3; omega
  | succ fu ih =>
    intro rem d s l ob ib rx tx h1 h2 h3
    cases s with
    | true =>
      simp only [hsLoop]
      rw [if_pos trivial]
      simp only [HSEngine.WriteMessage]
      by_cases hr1 : rem = 1
      · subst hr1
        rw [if_pos (by omega)]
        simp [hsCiphers, lastW, wTurns, rTurns, chunksOf]
      · rw [if_neg (show ¬ (d + rem ≤ d + 1) by omega)]
        dsimp only
        rcases rx with _ | ⟨f, rx2⟩
        · exfalso
          obtain ⟨x, rfl⟩ : ∃ x, rem = x + 2 := ⟨rem - 2, by omega⟩
          have hp := rTurns_true_pos x
          simp at h3
          omega
        · dsimp only
          simp only [HSEngine.ReadMessage]
          by_cases hr2 : rem = 2
          · subst hr2
            rw [if_pos (by omega)]
            simp [hsCiphers, lastW, wTurns, rTurns, chunksOf]
          · obtain ⟨y, rfl⟩ : ∃ y, rem = y + 3 := ⟨rem - 3, by omega⟩
            rw [if_neg (show ¬ (d + (y + 3) ≤ d + 1 + 1) by omega)]
            dsimp only
            have heng : (⟨d + (y + 3), d + 1 + 1, k1, k2⟩ : HSEngine) =
                ⟨(d + 2) + (y + 1), d + 2, k1, k2⟩ := by
              have e1 : d + (y + 3) = (d + 2) + (y + 1) := by omega
              have e2 : d + 1 + 1 = d + 2 := by omega
              rw [e1, e2]
            rw [heng]
            have hst : rTurns true (y + 3) = rTurns true (y + 1) + 1 :=
              rTurns_true_step (y + 1)
            rw [ih (y + 1) (d + 2) true l (ob.drop l) (ib ++ f) rx2
              (tx ++ [ob.take l]) (by omega) (by omega)
              (by simp only [List.length_cons] at h3; omega)]
            have hwt : wTurns true (y + 3) = wTurns true (y + 1) + 1 :=
              wTurns_true_step (y + 1)
            have hlw : lastW true (y + 3) = lastW true (y + 1) :=
              lastW_true_step y
            rw [hst, hwt, hlw]
            simp [chunksOf, List.drop_drop, List.append_assoc, Nat.succ_mul]
            rw [Nat.add_comm l]
    | false =>
      simp only [hsLoop]
      rw [if_neg (by simp)]
      rcases rx with _ | ⟨f, rx2⟩
      · exfalso
        obtain ⟨x, rfl⟩ : ∃ x, rem = x + 1 := ⟨rem - 1, by omega⟩
        have hp := rTurns_false_pos x
        simp at h3
        omega
      · dsimp only
        simp only [HSEngine.ReadMessage]
        by_cases hr1 : rem = 1
        · subst hr1
          rw [if_pos (by omega)]
          simp [hsCiphers, lastW, wTurns, rTurns, chunksOf]
        · obtain ⟨x, rfl⟩ : ∃ x, rem = x + 2 := ⟨rem - 2, by omega⟩
          rw [if_neg (show ¬ (d + (x + 2) ≤ d + 1) by omega)]
          dsimp only
          have heng : (⟨d + (x + 2), d + 1, k1, k2⟩ : HSEngine) =
              ⟨(d + 1) + (x + 1), d + 1, k1, k2⟩ := by
            have e1 : d + (x + 2) = (d + 1) + (x + 1) := by omega
            rw [e1]
          rw [heng]
          have hst : rTurns false (x + 2) = rTurns true (x + 1) + 1 :=
            rTurns_false_step (x + 1)
          rw [ih (x + 1) (d + 1) true l ob (ib ++ f) rx2 tx (by omega)
            (by omega) (by simp only [List.length_cons] at h3; omega)]
          have hwt : wTurns false (x + 2) = wTurns true (x + 1) :=
            wTurns_false_step (x + 1)
          have hlw : lastW false (x + 2) = lastW true (x + 1) :=
            lastW_false_step (x + 1)
          rw [hst, hwt, hlw]
          simp [List.append_assoc]

/-- C1 counterexample.  On a one-message pattern both endpoints'
handshakes succeed (the Initiator completes by its only write, the
Responder by its only read), yet the Responder — which sends zero
handshake messages — returns with its staged outbound buffer `[1, 2, 3]`
entirely unconsumed and discarded, and the Initiator's post-handshake
Reader is seeded with nothing: the staged bytes are silently lost, so
the claim fails for this role/pattern pairing even though both
`Handshake` calls succeed. -/
theorem oneMessageResponderDropsStagedBytes :
    (Handshake ⟨true, 1, 5, 7⟩ [] [] []).isSome = true ∧
    (Handshake ⟨false, 1, 5, 7⟩ [1, 2, 3] [] [[]]).map
        (fun r => (r.outbufLeft, r.seed)) = some ([1, 2, 3], []) ∧
    ([1, 2, 3] : List Nat) ≠ [] := by decide

/-- C1 as amended.  For every pattern length, pair of staged buffers,
and session keys, provided the chunk-size computation succeeds on both
sides and the Responder either sends at least one handshake message
(`1 ≤ nmOf false M`, automatic for patterns of two or more messages) or
staged nothing: both `Handshake` calls succeed against each other's
transmitted frames, each side transmits exactly its chunk schedule, each
side's staged outbound buffer is fully consumed, the peer's Reader
carry-over buffer is seeded with exactly the other side's staged bytes
(intact and in order), no inbound frames are left over, and the two
installed cipher pairs are correctly crossed.  The Initiator always
sends at least one message, so its staged bytes need no side
condition beyond the chunk computation succeeding; payload sizes below
and above the 4096-byte threshold are both covered since the buffers are
arbitrary. -/
theorem preHandshakeInjectionDelivery (M k1 k2 : Nat) (Aout Bout : List Nat)
    (lA lB : Nat) (hM : 1 ≤ M)
    (hA : chunkLen Aout.length true M = some lA)
    (hB : chunkLen Bout.length false M = some lB)
    (hBsend : 1 ≤ nmOf false M ∨ Bout = []) :
    ∃ resI resR,
      Handshake ⟨true, M, k1, k2⟩ Aout [] (chunksOf lB (nmOf false M) Bout) =
        some resI ∧
      Handshake ⟨false, M, k1, k2⟩ Bout [] (chunksOf lA (nmOf true M) Aout) =
        some resR ∧
      resI.tx = chunksOf lA (nmOf true M) Aout ∧
      resR.tx = chunksOf lB (nmOf false M) Bout ∧
      resI.seed = Bout ∧ resR.seed = Aout ∧
      resI.outbufLeft = [] ∧ resR.outbufLeft = [] ∧
      resI.rxRest = [] ∧ resR.rxRest = [] ∧
      Paired resI.wEnc resR.rDec ∧ Paired resR.wEnc resI.rDec := by
  obtain ⟨hw1, hw2⟩ := wTurns_nmOf M
  have hnm1 : nmOf true M = (M + 1) / 2 := by simp [nmOf]
  have hnm2 : nmOf false M = M / 2 := by simp [nmOf]
  have hposA : 0 < nmOf true M := by omega
  have hwle1 := wTurns_le M true
  have hwle2 := wTurns_le M false
  have hrt1 : rTurns true M = nmOf false M := by simp only [rTurns]; omega
  have hrt2 : rTurns false M = nmOf true M := by simp only [rTurns]; omega
  have hcovA : Aout.take (nmOf true M * lA) = Aout :=
    List.take_of_length_le (chunkLen_covers Aout.length true M lA hA hposA)
  have hcovB : Bout.take (nmOf false M * lB) = Bout := by
    rcases hBsend with hpos | hrfl
    · exact List.take_of_length_le (chunkLen_covers Bout.length false M lB hB hpos)
    · subst hrfl; simp
  set rxI := chunksOf lB (nmOf false M) Bout with hrxI
  set rxR := chunksOf lA (nmOf true M) Aout with hrxR
  have hlenI : rxI.length = nmOf false M := chunksOf_length lB (nmOf false M) Bout
  have hlenR : rxR.length = nmOf true M := chunksOf_length lA (nmOf true M) Aout
  have hI := hsLoop_spec k1 k2 (M + 1) M 0 true lA Aout [] rxI [] hM
    (by omega) (by omega)
  have hR := hsLoop_spec k1 k2 (M + 1) M 0 false lB Bout [] rxR [] hM
    (by omega) (by omega)
  rw [Nat.zero_add] at hI hR
  have HI : Handshake ⟨true, M, k1, k2⟩ Aout [] rxI =
      some ⟨(hsCiphers k1 k2 (lastW true M)).1,
        (hsCiphers k1 k2 (lastW true M)).2,
        (rxI.take (rTurns true M)).flatten,
        rxI.drop (rTurns true M),
        chunksOf lA (wTurns true M) Aout,
        Aout.drop (wTurns true M * lA),
        lastW true M⟩ := by
    simp only [Handshake]
    rw [hA]
    dsimp only
    rw [hI]
    simp only [List.nil_append]
  have HR : Handshake ⟨false, M, k1, k2⟩ Bout [] rxR =
      some ⟨(hsCiphers k1 k2 (lastW false M)).1,
        (hsCiphers k1 k2 (lastW false M)).2,
        (rxR.take (rTurns false M)).flatten,
        rxR.drop (rTurns false M),
        chunksOf lB (wTurns false M) Bout,
        Bout.drop (wTurns false M * lB),
        lastW false M⟩ := by
    simp only [Handshake]
    rw [hB]
    dsimp only
    rw [hR]
    simp only [List.nil_append]
  refine ⟨_, _, HI, HR, ?_, ?_, ?_, ?_, ?_, ?_, ?_, ?_, ?_, ?_⟩
  · dsimp only
    rw [hw1]
  · dsimp only
    rw [hw2]
  · dsimp only
    rw [hrt1, ← hlenI, List.take_length, hrxI, chunksOf_flatten, hcovB]
  · dsimp only
    rw [hrt2, ← hlenR, List.take_length, hrxR, chunksOf_flatten, hcovA]
  · dsimp only
    rw [hw1]
    exact List.drop_of_length_le (chunkLen_covers Aout.length true M lA hA hposA)
  · dsimp only
    rw [hw2]
    rcases hBsend with hpos | hrfl
    · exact List.drop_of_length_le (chunkLen_covers Bout.length false M lB hB hpos)
    · subst hrfl; simp
  · dsimp only
    rw [hrt1, ← hlenI, List.drop_length]
  · dsimp only
    rw [hrt2, ← hlenR, List.drop_length]
  · dsimp only
    rw [lastW_opp M hM]
    cases hl : lastW false M <;> simp [hsCiphers, Paired]
  · dsimp only
    rw [lastW_opp M hM]
    cases hl : lastW false M <;> simp [hsCiphers, Paired]

/-- C1 witness: a two-message pattern with 3 bytes staged by the
Initiator and 2 bytes by the Responder; both handshakes succeed and
deliver the staged bytes to the peer's seeded Reader. -/
theorem preHandshakeInjectionDelivery_witness :
    ∃ resI resR,
      Handshake ⟨true, 2, 5, 7⟩ [1, 2, 3] []
          (chunksOf 2 (nmOf false 2) [9, 9]) = some resI ∧
      Handshake ⟨false, 2, 5, 7⟩ [9, 9] []
          (chunksOf 3 (nmOf true 2) [1, 2, 3]) = some resR ∧
      resI.tx = chunksOf 3 (nmOf true 2) [1, 2, 3] ∧
      resR.tx = chunksOf 2 (nmOf false 2) [9, 9] ∧
      resI.seed = [9, 9] ∧ resR.seed = [1, 2, 3] ∧
      resI.outbufLeft = [] ∧ resR.outbufLeft = [] ∧
      resI.rxRest = [] ∧ resR.rxRest = [] ∧
      Paired resI.wEnc resR.rDec ∧ Paired resR.wEnc resI.rDec :=
  preHandshakeInjectionDelivery 2 5 7 [1, 2, 3] [9, 9] 3 2 (by decide)
    (by decide) (by decide) (Or.inl (by decide))

end Seep
